import Mathlib

/-!
Verification of the image-clone-controller reconciliation engine.

The development shallowly embeds `controllers/image_clone_controller.go`:
strings are `List Char`, the external image-reference library
(`name.ParseReference`, `name.NewTag`, `name.NewDigest`) is modelled from the
specification of the Image Reference Model, and the controller functions
(`toDestinationImage`, `reconcilePodTemplate`, `ReconcileDeployment`,
`ReconcileDaemonSet`, `namespacePredicate`) are translated from the source.
The external collaborators (object store, image transfer, event sink) are
passed in as explicit oracles, and the observable effects of one
reconciliation attempt (transfer invocations, recorded events, the issued
patch) are returned as data.
-/

deriving instance DecidableEq for Except

namespace ICC

/-- Go strings, modelled as lists of characters. -/
abbrev Str := List Char

/-- Split a list at the first occurrence of `c`, if any. -/
def splitFirst (c : Char) : Str → Option (Str × Str)
  | [] => none
  | x :: xs =>
    if x = c then some ([], xs)
    else
      match splitFirst c xs with
      | some (l, r) => some (x :: l, r)
      | none => none

/-- Split a list at the last occurrence of `c`, if any. -/
def splitLast (c : Char) : Str → Option (Str × Str)
  | [] => none
  | x :: xs =>
    match splitLast c xs with
    | some (l, r) => some (x :: l, r)
    | none => if x = c then some ([], xs) else none

/-- Whether the character `c` occurs in `s`. -/
def hasChar (c : Char) : Str → Bool
  | [] => false
  | x :: xs => if x = c then true else hasChar c xs

/-- Split `s` into its `c`-separated segments. -/
def segs (c : Char) : Str → List Str
  | [] => [[]]
  | x :: xs =>
    if x = c then [] :: segs c xs
    else
      match segs c xs with
      | [] => [[x]]
      | l :: ls => (x :: l) :: ls

/-- Characters allowed in a registry host name. -/
def isHostChar (c : Char) : Bool := c.isLower || c.isDigit || c = '.' || c = '-'

/-- Characters allowed in a repository path (apart from the `/` separators). -/
def isRepoChar (c : Char) : Bool :=
  c.isLower || c.isDigit || c = '.' || c = '_' || c = '-'

/-- Characters allowed in a tag. -/
def isTagChar (c : Char) : Bool := c.isAlphanum || c = '_' || c = '-' || c = '.'

/-- Characters allowed in the hex part (and algorithm part) of a digest. -/
def isDigestChar (c : Char) : Bool := c.isLower || c.isDigit

/-- Modelled from the spec: validity of a registry authority `host[:port]`
(the external library validates registries as RFC 3986 authorities). -/
def checkAuthority (s : Str) : Bool :=
  match splitFirst ':' s with
  | some (h, p) => !h.isEmpty && h.all isHostChar && !p.isEmpty && p.all Char.isDigit
  | none => !s.isEmpty && s.all isHostChar

/-- Modelled from the spec: validity of a repository path — slash-separated
nonempty segments over the repository character set. -/
def checkRepo (s : Str) : Bool :=
  s.all (fun c => isRepoChar c || c = '/') && (segs '/' s).all (fun seg => !seg.isEmpty)

/-- Modelled from the spec: validity of a tag string. -/
def checkTag (s : Str) : Bool := !s.isEmpty && s.all isTagChar

/-- Modelled from the spec: validity of a digest string `algorithm:hex`. -/
def checkDigest (s : Str) : Bool :=
  match splitFirst ':' s with
  | some (a, h) => !a.isEmpty && a.all isDigestChar && !h.isEmpty && h.all isDigestChar
  | none => false

/-- The identifier of an image reference: exactly one of tag or digest. -/
inductive Identifier where
  | tag (t : Str)
  | digest (d : Str)
deriving DecidableEq

/-- A parsed image reference: registry authority, repository path, identifier. -/
structure ImageReference where
  registry : Str
  repository : Str
  identifier : Identifier
deriving DecidableEq

/-- The default registry authority, `index.docker.io`. -/
def DefaultRegistry : Str := "index.docker.io".toList

/-- The implicit repository namespace on the default registry, `library`. -/
def defaultNamespace : Str := "library".toList

/-- Modelled from the spec: whether a leading path segment is recognized as a
registry authority (it contains a `.` or a `:`). -/
def distinguishable (s : Str) : Bool := hasChar '.' s || hasChar ':' s

/-- Modelled from the spec: repositories without a `/` on the default registry
live in the implicit `library` namespace. -/
def withNamespace (reg repo : Str) : Str :=
  if reg = DefaultRegistry && !hasChar '/' repo then defaultNamespace ++ '/' :: repo
  else repo

/-- Modelled from the spec: split a registry-qualified repository string into
registry authority and repository path, defaulting to the default registry,
and validate both parts. -/
def NewRepository (base : Str) : Except Str (Str × Str) :=
  let p : Str × Str :=
    match splitFirst '/' base with
    | some (first, rest) =>
      if distinguishable first then (first, rest) else (DefaultRegistry, base)
    | none => (DefaultRegistry, base)
  if checkAuthority p.1 && checkRepo p.2 then .ok (p.1, withNamespace p.1 p.2)
  else .error "bad repository".toList

/-- Modelled from the spec: parse a tag-addressed reference. The string is
split at the last `:` unless the part after it contains a `/` (a port of the
registry authority); a missing tag defaults to `latest`. -/
def NewTag (s : Str) : Except Str ImageReference :=
  match splitLast ':' s with
  | some (b, t) =>
    if hasChar '/' t then
      (NewRepository s).map fun p => ⟨p.1, p.2, .tag "latest".toList⟩
    else if checkTag t then
      (NewRepository b).map fun p => ⟨p.1, p.2, .tag t⟩
    else .error "bad tag".toList
  | none => (NewRepository s).map fun p => ⟨p.1, p.2, .tag "latest".toList⟩

/-- Modelled from the spec: parse a digest-addressed reference, split at the
first `@`. -/
def NewDigest (s : Str) : Except Str ImageReference :=
  match splitFirst '@' s with
  | some (base, dig) =>
    if checkDigest dig then
      (NewRepository base).map fun p => ⟨p.1, p.2, .digest dig⟩
    else .error "bad digest".toList
  | none => .error "no digest".toList

/-- Modelled from the spec: `parse` — try the tag form first, then the digest
form. No network access; fails on malformed references. -/
def ParseReference (s : Str) : Except Str ImageReference :=
  match NewTag s with
  | .ok t => .ok t
  | .error _ => NewDigest s

/-- Modelled from the spec: `serialize` — the canonical round-trip form
`registry/repository:tag` or `registry/repository@digest`. -/
def ImageReference.name (x : ImageReference) : Str :=
  x.registry ++ '/' :: x.repository ++
    match x.identifier with
    | .tag t => ':' :: t
    | .digest d => '@' :: d

/-- A reference is valid when its parts pass the respective checks, its
registry is recognizable as such, and repositories on the default registry
are namespace-qualified — exactly the image of `ParseReference`. -/
def ImageReference.valid (x : ImageReference) : Bool :=
  checkAuthority x.registry && distinguishable x.registry && checkRepo x.repository &&
  (!(x.registry == DefaultRegistry) || hasChar '/' x.repository) &&
  (match x.identifier with
   | .tag t => checkTag t
   | .digest d => checkDigest d)

/-- `registryReplacer` from the source: replaces `.` and `:` with `_` in
registry names to be used as a prefix in rewritten repository names. -/
def registryReplacer (s : Str) : Str :=
  s.map fun c => if c = '.' || c = ':' then '_' else c

/-- `toDestinationImage` from the source: rewrites a source image reference to
a corresponding tag in the backup registry. -/
def toDestinationImage (srcImg : ImageReference) (dstRegistry : Str) :
    Except Str ImageReference :=
  let newRepository := registryReplacer srcImg.registry ++ '/' :: srcImg.repository
  let newTag :=
    match srcImg.identifier with
    | .tag t => t
    | .digest d => d.map fun c => if c = ':' then '_' else c
  NewTag (dstRegistry ++ '/' :: newRepository ++ ':' :: newTag)

/-- A container of a pod template: name, image string, and all other fields
(opaque to the controller). -/
structure Container where
  name : Str
  image : Str
  containerRest : List Str
deriving DecidableEq

/-- A pod template: the ordered container list plus all other fields (opaque
to the controller). -/
structure PodTemplateSpec where
  containers : List Container
  templateRest : List Str
deriving DecidableEq

/-- The loop body of `reconcilePodTemplate` from the source, over the
container list. The external transfer collaborator `crane.Copy` is the oracle
`copyFn`. Returns the list of transfer invocations `(source, destination)`
actually issued, in order, together with the rewritten container list or the
error that aborted the loop. -/
def reconcileContainers (backup : Str) (copyFn : Str → Str → Except Str Unit) :
    List Container → List (Str × Str) × Except Str (List Container)
  | [] => ([], .ok [])
  | c :: rest =>
    match ParseReference c.image with
    | .error _ => ([], .error "failed parsing image".toList)
    | .ok srcImg =>
      if srcImg.registry = backup then
        ((reconcileContainers backup copyFn rest).1,
         (reconcileContainers backup copyFn rest).2.map (c :: ·))
      else
        match toDestinationImage srcImg backup with
        | .error _ => ([], .error "failed rewriting image".toList)
        | .ok dstImg =>
          match copyFn srcImg.name dstImg.name with
          | .error _ => ([(srcImg.name, dstImg.name)], .error "error copying image".toList)
          | .ok _ =>
            ((srcImg.name, dstImg.name) :: (reconcileContainers backup copyFn rest).1,
             (reconcileContainers backup copyFn rest).2.map
               (fun cs => { c with image := dstImg.name } :: cs))

/-- `reconcilePodTemplate` from the source: copies all images in the given pod
template to the backup registry if they do not reference it already and
updates the template to reference the copies; it never persists anything. -/
def reconcilePodTemplate (backup : Str) (copyFn : Str → Str → Except Str Unit)
    (t : PodTemplateSpec) : List (Str × Str) × Except Str PodTemplateSpec :=
  ((reconcileContainers backup copyFn t.containers).1,
   (reconcileContainers backup copyFn t.containers).2.map
     fun cs => { t with containers := cs })

/-- A Deployment: namespace, name, pod template, and all other fields. -/
structure Deployment where
  nsName : Str
  objName : Str
  template : PodTemplateSpec
  deploymentRest : List Str
deriving DecidableEq

/-- A DaemonSet: namespace, name, pod template, and all other fields. -/
structure DaemonSet where
  nsName : Str
  objName : Str
  template : PodTemplateSpec
  daemonSetRest : List Str
deriving DecidableEq

/-- Outcome of the object-store fetch at the start of an attempt. -/
inductive GetOutcome (α : Type) where
  | notFound
  | getError (e : Str)
  | found (obj : α)

/-- The observable effects of one reconciliation attempt: transfer
invocations, warning events recorded (by reason), and the patch issued
against the object store, if any. -/
structure ReconcileEffects (α : Type) where
  copies : List (Str × Str)
  events : List Str
  patch : Option α
deriving DecidableEq

/-- `ReconcileDeployment` from the source: fetch, snapshot, delegate to
`reconcilePodTemplate` (recording a warning event on failure), diff, and
patch under optimistic locking. `get` is the fetch outcome and `p` the
outcome the object store gives the patch, both external oracles. -/
def ReconcileDeployment (backup : Str) (copyFn : Str → Str → Except Str Unit)
    (get : GetOutcome Deployment) (p : Except Str Unit) :
    ReconcileEffects Deployment × Except Str Unit :=
  match get with
  | .notFound => (⟨[], [], none⟩, .ok ())
  | .getError e => (⟨[], [], none⟩, .error ("error reading object: ".toList ++ e))
  | .found deployment =>
    let pr := reconcilePodTemplate backup copyFn deployment.template
    match pr.2 with
    | .error e => (⟨pr.1, ["FailedCopyingImages".toList], none⟩, .error e)
    | .ok t2 =>
      if { deployment with template := t2 } = deployment then (⟨pr.1, [], none⟩, .ok ())
      else (⟨pr.1, [], some { deployment with template := t2 }⟩, p)

/-- `ReconcileDaemonSet` from the source: identical state machine for the
DaemonSet kind. -/
def ReconcileDaemonSet (backup : Str) (copyFn : Str → Str → Except Str Unit)
    (get : GetOutcome DaemonSet) (p : Except Str Unit) :
    ReconcileEffects DaemonSet × Except Str Unit :=
  match get with
  | .notFound => (⟨[], [], none⟩, .ok ())
  | .getError e => (⟨[], [], none⟩, .error ("error reading object: ".toList ++ e))
  | .found daemonSet =>
    let pr := reconcilePodTemplate backup copyFn daemonSet.template
    match pr.2 with
    | .error e => (⟨pr.1, ["FailedCopyingImages".toList], none⟩, .error e)
    | .ok t2 =>
      if { daemonSet with template := t2 } = daemonSet then (⟨pr.1, [], none⟩, .ok ())
      else (⟨pr.1, [], some { daemonSet with template := t2 }⟩, p)

/-- The stored object after an attempt, given the stored object before it,
the attempt's effects and whether the object store accepted the patch. -/
def storedAfter {α : Type} (stored : α) (eff : ReconcileEffects α)
    (patchSucceeded : Bool) : α :=
  match eff.patch with
  | some d => if patchSucceeded then d else stored
  | none => stored

/-- `RegistryNamespace` from the source. -/
def RegistryNamespace : Str := "registry".toList

/-- `ignoredNamespaces` from the source, after `SetupWithManager` has inserted
the controller's own namespace (when configured nonempty). -/
def ignoredNamespaces (podNamespace : Str) : List Str :=
  ["kube-system".toList, RegistryNamespace, "local-path-storage".toList] ++
    (if podNamespace.isEmpty then [] else [podNamespace])

/-- `namespacePredicate` from the source: ignores objects in system
namespaces. -/
def namespacePredicate (podNamespace : Str) (objNamespace : Str) : Bool :=
  !(ignoredNamespaces podNamespace).contains objNamespace

/-- Whether an `Except` value is a success. -/
def exceptOk {ε α : Type} : Except ε α → Bool
  | .ok _ => true
  | .error _ => false

/-- The identifier of `x` passes its respective check. -/
def identOK : Identifier → Bool
  | .tag t => checkTag t
  | .digest d => checkDigest d

/-- The identifier string used as the destination tag (digests sanitized). -/
def destIdent : Identifier → Str
  | .tag t => t
  | .digest d => d.map fun c => if c = ':' then '_' else c

/-- Replace the container list of a Deployment's pod template. -/
def withContainers (d : Deployment) (cs : List Container) : Deployment :=
  { d with template := { d.template with containers := cs } }

/-- Transfer oracle of the C1 witness scenario: copying nginx succeeds,
every other transfer fails. -/
def copyW : Str → Str → Except Str Unit := fun s _ =>
  if s = "index.docker.io/library/nginx:latest".toList then .ok ()
  else .error "unreachable".toList

theorem hasChar_iff {c : Char} : ∀ {s : Str}, hasChar c s = true ↔ c ∈ s
  | [] => by simp [hasChar]
  | x :: xs => by
    by_cases hx : x = c
    · subst hx; simp [hasChar]
    · simp only [hasChar, if_neg hx, hasChar_iff (s := xs), List.mem_cons]
      exact ⟨Or.inr, fun h => h.elim (fun h => absurd h.symm hx) id⟩

theorem hasChar_eq_false {c : Char} {s : Str} : hasChar c s = false ↔ c ∉ s := by
  rw [← Bool.not_eq_true, not_iff_not]
  exact hasChar_iff

theorem splitFirst_not_mem {c : Char} : ∀ {s : Str}, c ∉ s → splitFirst c s = none
  | [], _ => rfl
  | x :: xs, h => by
    have hx : ¬x = c := fun e => h (e ▸ List.mem_cons_self x xs)
    have hxs : c ∉ xs := fun m => h (List.mem_cons_of_mem x m)
    simp [splitFirst, hx, splitFirst_not_mem hxs]

theorem splitFirst_append {c : Char} {ys : Str} :
    ∀ {xs : Str}, c ∉ xs → splitFirst c (xs ++ c :: ys) = some (xs, ys)
  | [], _ => by simp [splitFirst]
  | x :: xs, h => by
    have hx : ¬x = c := fun e => h (e ▸ List.mem_cons_self x xs)
    have hxs : c ∉ xs := fun m => h (List.mem_cons_of_mem x m)
    simp [splitFirst, hx, splitFirst_append hxs]

theorem splitFirst_eq_some {c : Char} :
    ∀ {s l r : Str}, splitFirst c s = some (l, r) → s = l ++ c :: r ∧ c ∉ l
  | [], l, r, h => by simp [splitFirst] at h
  | x :: xs, l, r, h => by
    by_cases hx : x = c
    · subst hx
      simp [splitFirst] at h
      obtain ⟨hl, hr⟩ := h
      subst hl; subst hr
      simp
    · simp only [splitFirst, if_neg hx] at h
      match hs : splitFirst c xs with
      | none => rw [hs] at h; exact absurd h (by simp)
      | some (l', r') =>
        rw [hs] at h
        simp at h
        obtain ⟨hl, hr⟩ := h
        obtain ⟨he, hm⟩ := splitFirst_eq_some hs
        subst hl; subst hr
        constructor
        · simp [he]
        · intro hm2
          rcases List.mem_cons.mp hm2 with h1 | h2
          · exact hx h1.symm
          · exact hm h2

theorem splitLast_not_mem {c : Char} : ∀ {s : Str}, c ∉ s → splitLast c s = none
  | [], _ => rfl
  | x :: xs, h => by
    have hx : ¬x = c := fun e => h (e ▸ List.mem_cons_self x xs)
    have hxs : c ∉ xs := fun m => h (List.mem_cons_of_mem x m)
    simp [splitLast, hx, splitLast_not_mem hxs]

theorem splitLast_append {c : Char} {ys : Str} (hy : c ∉ ys) :
    ∀ (xs : Str), splitLast c (xs ++ c :: ys) = some (xs, ys)
  | [] => by simp [splitLast, splitLast_not_mem hy]
  | x :: xs => by
    simp [splitLast, splitLast_append hy xs]

theorem splitLast_eq_none {c : Char} : ∀ {s : Str}, splitLast c s = none → c ∉ s
  | [], _ => by simp
  | x :: xs, h => by
    simp only [splitLast] at h
    match hs : splitLast c xs with
    | some (l', r') => rw [hs] at h; exact absurd h (by simp)
    | none =>
      rw [hs] at h
      by_cases hx : x = c
      · rw [if_pos hx] at h; exact absurd h (by simp)
      · rw [if_neg hx] at h
        intro hm
        rcases List.mem_cons.mp hm with h1 | h2
        · exact hx h1.symm
        · exact splitLast_eq_none hs h2

theorem splitLast_eq_some {c : Char} :
    ∀ {s l r : Str}, splitLast c s = some (l, r) → s = l ++ c :: r ∧ c ∉ r
  | [], l, r, h => by simp [splitLast] at h
  | x :: xs, l, r, h => by
    simp only [splitLast] at h
    match hs : splitLast c xs with
    | some (l', r') =>
      rw [hs] at h
      simp at h
      obtain ⟨hl, hr⟩ := h
      obtain ⟨he, hm⟩ := splitLast_eq_some hs
      subst hl; subst hr
      exact ⟨by simp [he], hm⟩
    | none =>
      rw [hs] at h
      by_cases hx : x = c
      · rw [if_pos hx] at h
        simp at h
        obtain ⟨hl, hr⟩ := h
        subst hl; subst hr
        exact ⟨by simp [hx], splitLast_eq_none hs⟩
      · simp [hx] at h

theorem splitLast_append_some {c : Char} {ys l r : Str} (h : splitLast c ys = some (l, r)) :
    ∀ (xs : Str), splitLast c (xs ++ ys) = some (xs ++ l, r)
  | [] => by simpa using h
  | x :: xs => by
    simp [splitLast, splitLast_append_some h xs]

theorem splitLast_append_none {c : Char} {ys : Str} (h : splitLast c ys = none) :
    ∀ (xs : Str), splitLast c (xs ++ ys) =
      (splitLast c xs).map (fun p => (p.1, p.2 ++ ys))
  | [] => by simpa using h
  | x :: xs => by
    rw [List.cons_append]
    simp only [splitLast]
    rw [splitLast_append_none h xs]
    cases hx : splitLast c xs with
    | some p => simp [hx]
    | none => by_cases he : x = c <;> simp [he]

theorem segs_not_mem {c : Char} : ∀ {s : Str}, c ∉ s → segs c s = [s]
  | [], _ => rfl
  | x :: xs, h => by
    have hx : ¬x = c := fun e => h (e ▸ List.mem_cons_self x xs)
    have hxs : c ∉ xs := fun m => h (List.mem_cons_of_mem x m)
    simp [segs, hx, segs_not_mem hxs]

theorem segs_append {c : Char} {ys : Str} :
    ∀ {xs : Str}, c ∉ xs → segs c (xs ++ c :: ys) = xs :: segs c ys
  | [], _ => by simp [segs]
  | x :: xs, h => by
    have hx : ¬x = c := fun e => h (e ▸ List.mem_cons_self x xs)
    have hxs : c ∉ xs := fun m => h (List.mem_cons_of_mem x m)
    simp [segs, hx, segs_append hxs]

theorem not_mem_of_all {p : Char → Bool} {s : Str} (h : s.all p = true) {c : Char}
    (hc : p c = false) : c ∉ s := by
  intro hm
  have := List.all_eq_true.mp h c hm
  rw [hc] at this
  exact Bool.noConfusion this

theorem checkAuthority_mem {s : Str} (h : checkAuthority s = true) :
    s ≠ [] ∧ ∀ c ∈ s, isHostChar c = true ∨ c = ':' := by
  unfold checkAuthority at h
  cases hs : splitFirst ':' s with
  | none =>
    rw [hs] at h
    simp only [Bool.and_eq_true, Bool.not_eq_true'] at h
    refine ⟨by simpa using h.1, fun c hc => Or.inl (List.all_eq_true.mp h.2 c hc)⟩
  | some p =>
    obtain ⟨a, q⟩ := p
    rw [hs] at h
    simp only [Bool.and_eq_true, Bool.not_eq_true'] at h
    obtain ⟨he, hsplit⟩ := splitFirst_eq_some hs
    subst he
    obtain ⟨⟨⟨h1, h2⟩, h3⟩, h4⟩ := h
    refine ⟨by simp, fun c hc => ?_⟩
    rcases List.mem_append.mp hc with hm1 | hm2
    · exact Or.inl (List.all_eq_true.mp h2 c hm1)
    · rcases List.mem_cons.mp hm2 with hm3 | hm4
      · exact Or.inr hm3
      · refine Or.inl ?_
        have := List.all_eq_true.mp h4 c hm4
        simp only [isHostChar, Bool.or_eq_true]
        exact Or.inl (Or.inl (Or.inr this))

theorem checkAuthority_not_mem {s : Str} (h : checkAuthority s = true) {c : Char}
    (hc1 : isHostChar c = false) (hc2 : c ≠ ':') : c ∉ s := by
  intro hm
  rcases (checkAuthority_mem h).2 c hm with h1 | h2
  · rw [hc1] at h1; exact Bool.noConfusion h1
  · exact hc2 h2

theorem checkAuthority_ne_nil {s : Str} (h : checkAuthority s = true) : s ≠ [] :=
  (checkAuthority_mem h).1

theorem isRepoChar_of_isHostChar {c : Char} (h : isHostChar c = true) : isRepoChar c = true := by
  simp only [isHostChar, Bool.or_eq_true, decide_eq_true_eq] at h
  simp only [isRepoChar, Bool.or_eq_true, decide_eq_true_eq]
  tauto

theorem registryReplacer_chars {s : Str} (h : checkAuthority s = true) :
    (registryReplacer s).all isRepoChar = true ∧ registryReplacer s ≠ [] := by
  constructor
  · refine List.all_eq_true.mpr fun c hc => ?_
    obtain ⟨a, ha, hmap⟩ := List.mem_map.mp hc
    subst hmap
    by_cases h1 : a = '.'
    · rw [if_pos (by simp [h1])]; decide
    · by_cases h2 : a = ':'
      · rw [if_pos (by simp [h2])]; decide
      · rw [if_neg (by simp [h1, h2])]
        rcases (checkAuthority_mem h).2 a ha with h3 | h4
        · exact isRepoChar_of_isHostChar h3
        · exact absurd h4 h2
  · intro he
    have := checkAuthority_ne_nil h
    cases s with
    | nil => exact this rfl
    | cons a as => exact List.noConfusion he

theorem checkRepo_append_seg {a repo : Str} (ha : a.all isRepoChar = true)
    (hane : a ≠ []) (hslash : '/' ∉ a) (hr : checkRepo repo = true) :
    checkRepo (a ++ '/' :: repo) = true := by
  unfold checkRepo at hr ⊢
  simp only [Bool.and_eq_true] at hr ⊢
  constructor
  · rw [List.all_append]
    simp only [Bool.and_eq_true]
    refine ⟨?_, ?_⟩
    · refine List.all_eq_true.mpr fun c hc => ?_
      simp only [Bool.or_eq_true]
      exact Or.inl (List.all_eq_true.mp ha c hc)
    · rw [List.all_cons]
      simp only [Bool.and_eq_true]
      exact ⟨by decide, hr.1⟩
  · rw [segs_append hslash]
    rw [List.all_cons]
    simp only [Bool.and_eq_true]
    exact ⟨by simpa using hane, hr.2⟩

theorem withNamespace_ok (reg : Str) {repo : Str} (hr : checkRepo repo = true) :
    checkRepo (withNamespace reg repo) = true ∧
    (reg = DefaultRegistry → hasChar '/' (withNamespace reg repo) = true) := by
  unfold withNamespace
  by_cases hb : reg = DefaultRegistry ∧ hasChar '/' repo = false
  · have hcond : (decide (reg = DefaultRegistry) && !hasChar '/' repo) = true := by
      simp [hb.1, hb.2]
    rw [if_pos (by simpa using hcond)]
    constructor
    · refine checkRepo_append_seg (by decide) (by decide) (by decide) hr
    · intro _
      rw [hasChar_iff]
      exact List.mem_append.mpr (Or.inr (List.mem_cons_self _ _))
  · have hcond : ¬((decide (reg = DefaultRegistry) && !hasChar '/' repo) = true) := by
      simp only [Bool.and_eq_true, decide_eq_true_eq, Bool.not_eq_true']
      exact hb
    rw [if_neg hcond]
    refine ⟨hr, fun hd => ?_⟩
    by_cases hh : hasChar '/' repo = true
    · exact hh
    · exact absurd ⟨hd, by simpa using hh⟩ hb

theorem NewRepository_ok {base reg repo : Str}
    (h : NewRepository base = .ok (reg, repo)) :
    checkAuthority reg = true ∧ distinguishable reg = true ∧ checkRepo repo = true ∧
    (reg = DefaultRegistry → hasChar '/' repo = true) := by
  unfold NewRepository at h
  cases hs : splitFirst '/' base with
  | none =>
    rw [hs] at h
    simp only at h
    by_cases hc : (checkAuthority DefaultRegistry && checkRepo base) = true
    · rw [if_pos hc] at h
      simp only [Except.ok.injEq, Prod.mk.injEq] at h
      obtain ⟨h1, h2⟩ := h
      subst h1; subst h2
      simp only [Bool.and_eq_true] at hc
      obtain ⟨hw1, hw2⟩ := withNamespace_ok DefaultRegistry hc.2
      exact ⟨hc.1, by decide, hw1, fun _ => hw2 rfl⟩
    · rw [if_neg hc] at h
      exact absurd h (by simp)
  | some p =>
    obtain ⟨first, rest⟩ := p
    rw [hs] at h
    simp only at h
    by_cases hd : distinguishable first = true
    · rw [if_pos hd] at h
      by_cases hc : (checkAuthority first && checkRepo rest) = true
      · rw [if_pos hc] at h
        simp only [Except.ok.injEq, Prod.mk.injEq] at h
        obtain ⟨h1, h2⟩ := h
        subst h1; subst h2
        simp only [Bool.and_eq_true] at hc
        obtain ⟨hw1, hw2⟩ := withNamespace_ok first hc.2
        exact ⟨hc.1, hd, hw1, hw2⟩
      · rw [if_neg hc] at h
        exact absurd h (by simp)
    · rw [if_neg hd] at h
      by_cases hc : (checkAuthority DefaultRegistry && checkRepo base) = true
      · rw [if_pos hc] at h
        simp only [Except.ok.injEq, Prod.mk.injEq] at h
        obtain ⟨h1, h2⟩ := h
        subst h1; subst h2
        simp only [Bool.and_eq_true] at hc
        obtain ⟨hw1, hw2⟩ := withNamespace_ok DefaultRegistry hc.2
        exact ⟨hc.1, by decide, hw1, fun _ => hw2 rfl⟩
      · rw [if_neg hc] at h
        exact absurd h (by simp)

theorem valid_iff {x : ImageReference} :
    x.valid = true ↔
      checkAuthority x.registry = true ∧ distinguishable x.registry = true ∧
      checkRepo x.repository = true ∧
      (x.registry = DefaultRegistry → hasChar '/' x.repository = true) ∧
      identOK x.identifier = true := by
  obtain ⟨reg, repo, ident⟩ := x
  unfold ImageReference.valid identOK
  simp only [Bool.and_eq_true, Bool.or_eq_true, Bool.not_eq_true', beq_eq_false_iff_ne, ne_eq]
  constructor
  · rintro ⟨⟨⟨⟨a1, a2⟩, a3⟩, a4⟩, a5⟩
    refine ⟨a1, a2, a3, fun hd => ?_, a5⟩
    rcases a4 with h | h
    · exact absurd hd h
    · exact h
  · rintro ⟨a1, a2, a3, a4, a5⟩
    refine ⟨⟨⟨⟨a1, a2⟩, a3⟩, ?_⟩, a5⟩
    by_cases hd : reg = DefaultRegistry
    · exact Or.inr (a4 hd)
    · exact Or.inl hd

theorem checkTag_latest : checkTag "latest".toList = true := by decide

theorem map_ok_elim {ε α β : Type} {f : α → β} {e : Except ε α} {x : β}
    (h : Except.map f e = .ok x) : ∃ a, e = .ok a ∧ f a = x := by
  cases e with
  | error err => simp [Except.map] at h
  | ok a => simp only [Except.map, Except.ok.injEq] at h; exact ⟨a, rfl, h⟩

theorem NewTag_ok {s : Str} {x : ImageReference} (h : NewTag s = .ok x) :
    x.valid = true ∧ ∃ t, x.identifier = .tag t := by
  unfold NewTag at h
  split at h
  · split at h
    · obtain ⟨⟨reg, repo⟩, hr, hf⟩ := map_ok_elim h
      subst hf
      obtain ⟨a1, a2, a3, a4⟩ := NewRepository_ok hr
      exact ⟨valid_iff.mpr ⟨a1, a2, a3, a4, checkTag_latest⟩, _, rfl⟩
    · split at h
      · obtain ⟨⟨reg, repo⟩, hr, hf⟩ := map_ok_elim h
        subst hf
        obtain ⟨a1, a2, a3, a4⟩ := NewRepository_ok hr
        exact ⟨valid_iff.mpr ⟨a1, a2, a3, a4, ‹checkTag _ = true›⟩, _, rfl⟩
      · exact absurd h (by simp)
  · obtain ⟨⟨reg, repo⟩, hr, hf⟩ := map_ok_elim h
    subst hf
    obtain ⟨a1, a2, a3, a4⟩ := NewRepository_ok hr
    exact ⟨valid_iff.mpr ⟨a1, a2, a3, a4, checkTag_latest⟩, _, rfl⟩

theorem NewDigest_ok {s : Str} {x : ImageReference} (h : NewDigest s = .ok x) :
    x.valid = true ∧ ∃ d, x.identifier = .digest d := by
  unfold NewDigest at h
  split at h
  · split at h
    · obtain ⟨⟨reg, repo⟩, hr, hf⟩ := map_ok_elim h
      subst hf
      obtain ⟨a1, a2, a3, a4⟩ := NewRepository_ok hr
      exact ⟨valid_iff.mpr ⟨a1, a2, a3, a4, ‹checkDigest _ = true›⟩, _, rfl⟩
    · exact absurd h (by simp)
  · exact absurd h (by simp)

theorem ParseReference_ok_valid {s : Str} {x : ImageReference}
    (h : ParseReference s = .ok x) : x.valid = true := by
  unfold ParseReference at h
  cases ht : NewTag s with
  | ok y => rw [ht] at h; cases h; exact (NewTag_ok ht).1
  | error e => rw [ht] at h; exact (NewDigest_ok h).1

theorem andE {a b : Bool} (h : (a && b) = true) : a = true ∧ b = true := by
  simpa using h

theorem all_eq_false_of_mem {p : Char → Bool} {s : Str} {c : Char} (hm : c ∈ s)
    (hc : p c = false) : s.all p = false := by
  by_cases h : s.all p = true
  · rw [List.all_eq_true.mp h c hm] at hc; exact Bool.noConfusion hc
  · simpa using h

theorem checkRepo_not_mem {s : Str} (h : checkRepo s = true) {c : Char}
    (hc1 : isRepoChar c = false) (hc2 : c ≠ '/') : c ∉ s := by
  intro hm
  have hall := (andE h).1
  have := List.all_eq_true.mp hall c hm
  rw [hc1] at this
  simp only [Bool.false_or, decide_eq_true_eq] at this
  exact hc2 this

theorem checkTag_parts {t : Str} (h : checkTag t = true) :
    t ≠ [] ∧ t.all isTagChar = true := by
  obtain ⟨h1, h2⟩ := andE h
  exact ⟨by simpa using h1, h2⟩

theorem checkTag_not_mem {t : Str} (h : checkTag t = true) {c : Char}
    (hc : isTagChar c = false) : c ∉ t :=
  not_mem_of_all (checkTag_parts h).2 hc

theorem checkDigest_parts {d : Str} (h : checkDigest d = true) :
    ∃ a hx, d = a ++ ':' :: hx ∧ a ≠ [] ∧ a.all isDigestChar = true ∧
      hx ≠ [] ∧ hx.all isDigestChar = true := by
  unfold checkDigest at h
  cases hs : splitFirst ':' d with
  | none => rw [hs] at h; exact Bool.noConfusion h
  | some p =>
    obtain ⟨a, hx⟩ := p
    rw [hs] at h
    simp only [Bool.and_eq_true, Bool.not_eq_true'] at h
    obtain ⟨⟨⟨h1, h2⟩, h3⟩, h4⟩ := h
    obtain ⟨he, _⟩ := splitFirst_eq_some hs
    exact ⟨a, hx, he, by simpa using h1, h2, by simpa using h3, h4⟩

theorem isTagChar_of_isDigestChar {c : Char} (h : isDigestChar c = true) :
    isTagChar c = true := by
  simp only [isDigestChar, Bool.or_eq_true] at h
  simp only [isTagChar, Char.isAlphanum, Char.isAlpha, Bool.or_eq_true]
  rcases h with h | h
  · exact Or.inl (Or.inl (Or.inl (Or.inl (Or.inr h))))
  · exact Or.inl (Or.inl (Or.inl (Or.inr h)))

theorem NewRepository_of_valid {reg repo : Str}
    (h1 : checkAuthority reg = true) (h2 : distinguishable reg = true)
    (h3 : checkRepo repo = true)
    (h4 : reg = DefaultRegistry → hasChar '/' repo = true) :
    NewRepository (reg ++ '/' :: repo) = .ok (reg, repo) := by
  have hslash : '/' ∉ reg := checkAuthority_not_mem h1 (by decide) (by decide)
  have hw : withNamespace reg repo = repo := by
    unfold withNamespace
    by_cases hd : reg = DefaultRegistry
    · rw [if_neg (by simp [hd, h4 hd])]
    · rw [if_neg (by simp [hd])]
  unfold NewRepository
  simp only [splitFirst_append hslash, h2, if_true, h1, h3, hw, Bool.and_self, if_pos]

theorem NewTag_roundtrip {reg repo t : Str}
    (h1 : checkAuthority reg = true) (h2 : distinguishable reg = true)
    (h3 : checkRepo repo = true)
    (h4 : reg = DefaultRegistry → hasChar '/' repo = true)
    (h5 : checkTag t = true) :
    NewTag (reg ++ '/' :: repo ++ ':' :: t) = .ok ⟨reg, repo, .tag t⟩ := by
  have hct : ':' ∉ t := checkTag_not_mem h5 (by decide)
  have hslash : hasChar '/' t = false :=
    hasChar_eq_false.mpr (checkTag_not_mem h5 (by decide))
  have he : reg ++ '/' :: repo ++ ':' :: t = (reg ++ '/' :: repo) ++ ':' :: t := by simp
  rw [he]
  unfold NewTag
  rw [splitLast_append hct]
  simp only [hslash, Bool.false_eq_true, if_false, h5, if_true, if_pos,
    NewRepository_of_valid h1 h2 h3 h4, Except.map]

theorem NewDigest_roundtrip {reg repo d : Str}
    (h1 : checkAuthority reg = true) (h2 : distinguishable reg = true)
    (h3 : checkRepo repo = true)
    (h4 : reg = DefaultRegistry → hasChar '/' repo = true)
    (h5 : checkDigest d = true) :
    NewDigest (reg ++ '/' :: repo ++ '@' :: d) = .ok ⟨reg, repo, .digest d⟩ := by
  have hat : '@' ∉ reg ++ '/' :: repo := by
    intro hm
    rcases List.mem_append.mp hm with hm1 | hm2
    · exact checkAuthority_not_mem h1 (by decide) (by decide) hm1
    · rcases List.mem_cons.mp hm2 with hm3 | hm4
      · exact absurd hm3 (by decide)
      · exact checkRepo_not_mem h3 (by decide) (by decide) hm4
  have he : reg ++ '/' :: repo ++ '@' :: d = (reg ++ '/' :: repo) ++ '@' :: d := by simp
  rw [he]
  unfold NewDigest
  rw [splitFirst_append hat]
  simp only [h5, if_true, if_pos, NewRepository_of_valid h1 h2 h3 h4, Except.map]

theorem NewTag_fails_on_digest {reg repo d : Str}
    (h1 : checkAuthority reg = true) (_h3 : checkRepo repo = true)
    (h5 : checkDigest d = true) :
    ∃ e, NewTag (reg ++ '/' :: repo ++ '@' :: d) = .error e := by
  obtain ⟨a, hx, hd, ha1, ha2, hx1, hx2⟩ := checkDigest_parts h5
  have hcx : ':' ∉ hx := not_mem_of_all hx2 (by decide)
  have hsx : hasChar '/' hx = false :=
    hasChar_eq_false.mpr (not_mem_of_all hx2 (by decide))
  have htx : checkTag hx = true := by
    have h2 : hx.all isTagChar = true :=
      List.all_eq_true.mpr fun c hc => isTagChar_of_isDigestChar (List.all_eq_true.mp hx2 c hc)
    cases hx with
    | nil => exact absurd rfl hx1
    | cons y ys => simpa [checkTag] using h2
  have hslash : '/' ∉ reg := checkAuthority_not_mem h1 (by decide) (by decide)
  have hatmem : ('@' : Char) ∈ repo ++ '@' :: a :=
    List.mem_append.mpr (Or.inr (List.mem_cons_self _ _))
  have hrep : NewRepository (reg ++ '/' :: (repo ++ '@' :: a))
      = .error "bad repository".toList := by
    have hbad1 : checkRepo (repo ++ '@' :: a) = false := by
      unfold checkRepo
      rw [all_eq_false_of_mem hatmem (by decide), Bool.false_and]
    have hbad2 : checkRepo (reg ++ '/' :: (repo ++ '@' :: a)) = false := by
      unfold checkRepo
      rw [all_eq_false_of_mem
        (List.mem_append.mpr (Or.inr (List.mem_cons.mpr (Or.inr hatmem)))) (by decide),
        Bool.false_and]
    unfold NewRepository
    rw [splitFirst_append hslash]
    by_cases hdist : distinguishable reg = true
    · simp [hdist, hbad1]
    · simp [hdist, hbad2]
  have he : reg ++ '/' :: repo ++ '@' :: d
      = (reg ++ '/' :: (repo ++ '@' :: a)) ++ ':' :: hx := by simp [hd]
  refine ⟨"bad repository".toList, ?_⟩
  rw [he]
  unfold NewTag
  rw [splitLast_append hcx]
  simp only [hsx, Bool.false_eq_true, if_false, htx, if_true, if_pos, hrep, Except.map]

theorem valid_roundtrip {x : ImageReference} (h : x.valid = true) :
    ParseReference x.name = .ok x := by
  obtain ⟨reg, repo, ident⟩ := x
  obtain ⟨a1, a2, a3, a4, a5⟩ := valid_iff.mp h
  cases ident with
  | tag t =>
    unfold ParseReference
    have hn : ImageReference.name ⟨reg, repo, .tag t⟩ = reg ++ '/' :: repo ++ ':' :: t := rfl
    rw [hn, NewTag_roundtrip a1 a2 a3 a4 (by simpa [identOK] using a5)]
  | digest d =>
    unfold ParseReference
    have hn : ImageReference.name ⟨reg, repo, .digest d⟩ = reg ++ '/' :: repo ++ '@' :: d := rfl
    rw [hn]
    obtain ⟨e, he⟩ := NewTag_fails_on_digest a1 a3 (by simpa [identOK] using a5)
    rw [he, NewDigest_roundtrip a1 a2 a3 a4 (by simpa [identOK] using a5)]

theorem registryReplacer_no_slash {s : Str} (h : '/' ∉ s) :
    '/' ∉ registryReplacer s := by
  intro hm
  rcases List.mem_map.mp hm with ⟨a, ha, hmap⟩
  by_cases hb : a = '.'
  · rw [if_pos (by simp [hb])] at hmap; exact absurd hmap (by decide)
  · by_cases hc : a = ':'
    · rw [if_pos (by simp [hc])] at hmap; exact absurd hmap (by decide)
    · rw [if_neg (by simp [hb, hc])] at hmap; subst hmap; exact h ha

theorem destIdent_checkTag {ident : Identifier} (h : identOK ident = true) :
    checkTag (destIdent ident) = true := by
  cases ident with
  | tag t => exact h
  | digest d =>
    obtain ⟨a, hx, hd, ha1, ha2, hx1, hx2⟩ := checkDigest_parts h
    subst hd
    have hall : (((a ++ ':' :: hx).map fun c => if c = ':' then '_' else c).all
        isTagChar) = true := by
      refine List.all_eq_true.mpr fun c hc => ?_
      obtain ⟨c0, hc0, hmap⟩ := List.mem_map.mp hc
      by_cases hcc : c0 = ':'
      · rw [if_pos hcc] at hmap; subst hmap; decide
      · rw [if_neg hcc] at hmap
        subst hmap
        refine isTagChar_of_isDigestChar ?_
        rcases List.mem_append.mp hc0 with hm1 | hm2
        · exact List.all_eq_true.mp ha2 c0 hm1
        · rcases List.mem_cons.mp hm2 with hm3 | hm4
          · exact absurd hm3 hcc
          · exact List.all_eq_true.mp hx2 c0 hm4
    unfold checkTag destIdent
    rw [hall]
    cases a with
    | nil => simp
    | cons y ys => simp

theorem toDestinationImage_ok {src : ImageReference} {backup : Str}
    (hv : src.valid = true) (hb1 : checkAuthority backup = true)
    (hb2 : distinguishable backup = true) :
    toDestinationImage src backup =
      .ok ⟨backup, registryReplacer src.registry ++ '/' :: src.repository,
        .tag (destIdent src.identifier)⟩ := by
  obtain ⟨reg, repo, ident⟩ := src
  obtain ⟨a1, a2, a3, a4, a5⟩ := valid_iff.mp hv
  obtain ⟨hs1, hs2⟩ := registryReplacer_chars a1
  have hs3 : '/' ∉ registryReplacer reg :=
    registryReplacer_no_slash (checkAuthority_not_mem a1 (by decide) (by decide))
  have hrepo : checkRepo (registryReplacer reg ++ '/' :: repo) = true :=
    checkRepo_append_seg hs1 hs2 hs3 a3
  have hslash2 : backup = DefaultRegistry →
      hasChar '/' (registryReplacer reg ++ '/' :: repo) = true :=
    fun _ => hasChar_iff.mpr (List.mem_append.mpr (Or.inr (List.mem_cons_self _ _)))
  have ht : checkTag (destIdent ident) = true := destIdent_checkTag a5
  cases ident with
  | tag t => exact NewTag_roundtrip hb1 hb2 hrepo hslash2 ht
  | digest d => exact NewTag_roundtrip hb1 hb2 hrepo hslash2 ht

theorem NewRepository_at_registry {reg z : Str} {y : Str × Str}
    (hb1 : checkAuthority reg = true) (hb2 : distinguishable reg = true)
    (hy : NewRepository (reg ++ '/' :: z) = .ok y) : y.1 = reg := by
  have hslash : '/' ∉ reg := checkAuthority_not_mem hb1 (by decide) (by decide)
  unfold NewRepository at hy
  rw [splitFirst_append hslash] at hy
  simp only [hb2, if_true] at hy
  by_cases hc : (checkAuthority reg && checkRepo z) = true
  · rw [if_pos hc] at hy
    cases hy
    rfl
  · rw [if_neg hc] at hy
    exact absurd hy (by simp)

theorem NewTag_registry {reg rest : Str} {x : ImageReference}
    (hb1 : checkAuthority reg = true) (hb2 : distinguishable reg = true)
    (h : NewTag (reg ++ '/' :: rest) = .ok x) : x.registry = reg := by
  unfold NewTag at h
  cases hsp : splitLast ':' rest with
  | some p =>
    obtain ⟨l, r⟩ := p
    have hlift : splitLast ':' ('/' :: rest) = some ('/' :: l, r) := by
      simp [splitLast, hsp]
    simp only [splitLast_append_some hlift] at h
    by_cases h1 : hasChar '/' r = true
    · rw [if_pos h1] at h
      obtain ⟨y, hy, hf⟩ := map_ok_elim h
      rw [← hf]
      exact NewRepository_at_registry hb1 hb2 hy
    · rw [if_neg h1] at h
      by_cases h2 : checkTag r = true
      · rw [if_pos h2] at h
        obtain ⟨y, hy, hf⟩ := map_ok_elim h
        rw [← hf]
        exact NewRepository_at_registry hb1 hb2 (by simpa using hy)
      · rw [if_neg h2] at h
        exact absurd h (by simp)
  | none =>
    have hlift : splitLast ':' ('/' :: rest) = none := by
      simp [splitLast, hsp]
    rw [splitLast_append_none hlift reg] at h
    cases hq : splitLast ':' reg with
    | some q =>
      obtain ⟨q1, q2⟩ := q
      simp only [hq, Option.map] at h
      have hmem : hasChar '/' (q2 ++ '/' :: rest) = true :=
        hasChar_iff.mpr (List.mem_append.mpr (Or.inr (List.mem_cons_self _ _)))
      rw [if_pos hmem] at h
      obtain ⟨y, hy, hf⟩ := map_ok_elim h
      rw [← hf]
      exact NewRepository_at_registry hb1 hb2 hy
    | none =>
      simp only [hq, Option.map] at h
      obtain ⟨y, hy, hf⟩ := map_ok_elim h
      rw [← hf]
      exact NewRepository_at_registry hb1 hb2 hy

theorem toDestinationImage_registry {src x : ImageReference} {backup : Str}
    (hb1 : checkAuthority backup = true) (hb2 : distinguishable backup = true)
    (h : toDestinationImage src backup = .ok x) :
    x.registry = backup ∧ ∃ t, x.identifier = .tag t := by
  obtain ⟨reg, repo, ident⟩ := src
  cases ident with
  | tag t =>
    simp only [toDestinationImage] at h
    rw [List.append_assoc, List.cons_append] at h
    exact ⟨NewTag_registry hb1 hb2 h, (NewTag_ok h).2⟩
  | digest d =>
    simp only [toDestinationImage] at h
    rw [List.append_assoc, List.cons_append] at h
    exact ⟨NewTag_registry hb1 hb2 h, (NewTag_ok h).2⟩

theorem map_eq_error {ε α β : Type} {f : α → β} {x : Except ε α} {e : ε}
    (h : Except.map f x = .error e) : x = .error e := by
  cases x with
  | error e2 => simpa [Except.map] using h
  | ok a => simp [Except.map] at h

theorem reconcileContainers_all_mirrored {backup : Str} {f : Str → Str → Except Str Unit} :
    ∀ {cs : List Container},
      (∀ c ∈ cs, ∃ r, ParseReference c.image = .ok r ∧ r.registry = backup) →
      reconcileContainers backup f cs = ([], .ok cs)
  | [], _ => rfl
  | c :: rest, h => by
    obtain ⟨r, hr, hreg⟩ := h c (List.mem_cons_self _ _)
    have ih := reconcileContainers_all_mirrored (f := f)
      (fun c2 hc2 => h c2 (List.mem_cons_of_mem _ hc2))
    simp only [reconcileContainers, hr]
    rw [if_pos hreg, ih]
    simp [Except.map]

theorem reconcileContainers_cons_err {backup : Str} {f : Str → Str → Except Str Unit}
    {ck : Container} {e : Str}
    (h : (reconcileContainers backup f [ck]).2 = .error e) (rest : List Container) :
    reconcileContainers backup f (ck :: rest) =
      ((reconcileContainers backup f [ck]).1, .error e) := by
  cases hp : ParseReference ck.image with
  | error pe =>
    simp only [reconcileContainers, hp] at h ⊢
    simp only [Except.error.injEq] at h
    rw [← h]
  | ok srcImg =>
    by_cases hreg : srcImg.registry = backup
    · exfalso
      simp only [reconcileContainers, hp, if_pos hreg] at h
      simp [Except.map] at h
    · cases hd : toDestinationImage srcImg backup with
      | error de =>
        simp only [reconcileContainers, hp, if_neg hreg, hd] at h ⊢
        simp only [Except.error.injEq] at h
        rw [← h]
      | ok dstImg =>
        cases hc : f srcImg.name dstImg.name with
        | error ce =>
          simp only [reconcileContainers, hp, if_neg hreg, hd, hc] at h ⊢
          simp only [Except.error.injEq] at h
          rw [← h]
        | ok u =>
          exfalso
          simp only [reconcileContainers, hp, if_neg hreg, hd, hc] at h
          simp [Except.map] at h

theorem reconcileContainers_append_err {backup : Str} {f : Str → Str → Except Str Unit} :
    ∀ {xs : List Container} {e : Str} (ys : List Container),
      (reconcileContainers backup f xs).2 = .error e →
      reconcileContainers backup f (xs ++ ys) = ((reconcileContainers backup f xs).1, .error e)
  | [], e, ys, h => by simp [reconcileContainers] at h
  | c :: xs, e, ys, h => by
    rw [List.cons_append]
    cases hp : ParseReference c.image with
    | error pe =>
      simp only [reconcileContainers, hp] at h ⊢
      simp only [Except.error.injEq] at h
      rw [← h]
    | ok srcImg =>
      by_cases hreg : srcImg.registry = backup
      · simp only [reconcileContainers, hp, if_pos hreg] at h ⊢
        have h2 : (reconcileContainers backup f xs).2 = .error e := map_eq_error h
        rw [reconcileContainers_append_err ys h2]
        simp [Except.map]
      · cases hd : toDestinationImage srcImg backup with
        | error de =>
          simp only [reconcileContainers, hp, if_neg hreg, hd] at h ⊢
          simp only [Except.error.injEq] at h
          rw [← h]
        | ok dstImg =>
          cases hc : f srcImg.name dstImg.name with
          | error ce =>
            simp only [reconcileContainers, hp, if_neg hreg, hd, hc] at h ⊢
            simp only [Except.error.injEq] at h
            rw [← h]
          | ok u =>
            simp only [reconcileContainers, hp, if_neg hreg, hd, hc] at h ⊢
            have h2 : (reconcileContainers backup f xs).2 = .error e := map_eq_error h
            rw [reconcileContainers_append_err ys h2]
            simp [Except.map]

theorem reconcileContainers_append_ok {backup : Str} {f : Str → Str → Except Str Unit} :
    ∀ {xs : List Container} {cs : List Container} (ys : List Container),
      (reconcileContainers backup f xs).2 = .ok cs →
      reconcileContainers backup f (xs ++ ys) =
        ((reconcileContainers backup f xs).1 ++ (reconcileContainers backup f ys).1,
         (reconcileContainers backup f ys).2.map (cs ++ ·))
  | [], cs, ys, h => by
    simp only [reconcileContainers] at h
    simp only [Except.ok.injEq] at h
    subst h
    rw [List.nil_append]
    cases hr : reconcileContainers backup f ys with
    | mk l r => cases r <;> simp [reconcileContainers, Except.map]
  | c :: xs, cs, ys, h => by
    rw [List.cons_append]
    cases hp : ParseReference c.image with
    | error pe => simp [reconcileContainers, hp] at h
    | ok srcImg =>
      by_cases hreg : srcImg.registry = backup
      · simp only [reconcileContainers, hp, if_pos hreg] at h ⊢
        cases h2 : (reconcileContainers backup f xs).2 with
        | error e2 => rw [h2] at h; simp [Except.map] at h
        | ok cs2 =>
          rw [h2] at h
          simp only [Except.map, Except.ok.injEq] at h
          subst h
          rw [reconcileContainers_append_ok ys h2]
          cases h3 : (reconcileContainers backup f ys).2 with
          | error e2 => simp [h2, h3, Except.map]
          | ok cs3 => simp [h2, h3, Except.map]
      · cases hd : toDestinationImage srcImg backup with
        | error de =>
          simp only [reconcileContainers, hp, if_neg hreg, hd] at h
          simp at h
        | ok dstImg =>
          cases hc : f srcImg.name dstImg.name with
          | error ce =>
            simp only [reconcileContainers, hp, if_neg hreg, hd, hc] at h
            simp at h
          | ok u =>
            simp only [reconcileContainers, hp, if_neg hreg, hd, hc] at h ⊢
            cases h2 : (reconcileContainers backup f xs).2 with
            | error e2 => rw [h2] at h; simp [Except.map] at h
            | ok cs2 =>
              rw [h2] at h
              simp only [Except.map, Except.ok.injEq] at h
              subst h
              rw [reconcileContainers_append_ok ys h2]
              cases h3 : (reconcileContainers backup f ys).2 with
              | error e2 => simp [h2, h3, Except.map]
              | ok cs3 => simp [h2, h3, Except.map]

theorem reconcileContainers_frame {backup : Str} {f : Str → Str → Except Str Unit} :
    ∀ {cs cs' : List Container},
      (reconcileContainers backup f cs).2 = .ok cs' →
      List.Forall₂ (fun c c' => c.name = c'.name ∧ c.containerRest = c'.containerRest) cs cs'
  | [], cs', h => by
    simp only [reconcileContainers, Except.ok.injEq] at h
    subst h
    exact List.Forall₂.nil
  | c :: rest, cs', h => by
    cases hp : ParseReference c.image with
    | error pe => simp [reconcileContainers, hp] at h
    | ok srcImg =>
      by_cases hreg : srcImg.registry = backup
      · simp only [reconcileContainers, hp, if_pos hreg] at h
        obtain ⟨tail, hy, hf⟩ := map_ok_elim h
        subst hf
        exact List.Forall₂.cons ⟨rfl, rfl⟩ (reconcileContainers_frame hy)
      · cases hd : toDestinationImage srcImg backup with
        | error de => simp [reconcileContainers, hp, if_neg hreg, hd] at h
        | ok dstImg =>
          cases hc : f srcImg.name dstImg.name with
          | error ce => simp [reconcileContainers, hp, if_neg hreg, hd, hc] at h
          | ok u =>
            simp only [reconcileContainers, hp, if_neg hreg, hd, hc] at h
            obtain ⟨tail, hy, hf⟩ := map_ok_elim h
            subst hf
            exact List.Forall₂.cons ⟨rfl, rfl⟩ (reconcileContainers_frame hy)

theorem toDestinationImage_valid {src x : ImageReference} {backup : Str}
    (h : toDestinationImage src backup = .ok x) : x.valid = true := by
  obtain ⟨reg, repo, ident⟩ := src
  cases ident with
  | tag t =>
    simp only [toDestinationImage] at h
    exact (NewTag_ok h).1
  | digest d =>
    simp only [toDestinationImage] at h
    exact (NewTag_ok h).1

theorem reconcileContainers_mirrored_out {backup : Str} {f : Str → Str → Except Str Unit}
    (hb1 : checkAuthority backup = true) (hb2 : distinguishable backup = true) :
    ∀ {cs cs' : List Container},
      (reconcileContainers backup f cs).2 = .ok cs' →
      ∀ c' ∈ cs', ∃ r, ParseReference c'.image = .ok r ∧ r.registry = backup
  | [], cs', h => by
    simp only [reconcileContainers, Except.ok.injEq] at h
    subst h
    intro c' hc'
    exact absurd hc' (List.not_mem_nil c')
  | c :: rest, cs', h => by
    cases hp : ParseReference c.image with
    | error pe => simp [reconcileContainers, hp] at h
    | ok srcImg =>
      by_cases hreg : srcImg.registry = backup
      · simp only [reconcileContainers, hp, if_pos hreg] at h
        obtain ⟨tail, hy, hf⟩ := map_ok_elim h
        subst hf
        intro c' hc'
        rcases List.mem_cons.mp hc' with h1 | h2
        · subst h1
          exact ⟨srcImg, hp, hreg⟩
        · exact reconcileContainers_mirrored_out hb1 hb2 hy c' h2
      · cases hd : toDestinationImage srcImg backup with
        | error de => simp [reconcileContainers, hp, if_neg hreg, hd] at h
        | ok dstImg =>
          cases hc : f srcImg.name dstImg.name with
          | error ce => simp [reconcileContainers, hp, if_neg hreg, hd, hc] at h
          | ok u =>
            simp only [reconcileContainers, hp, if_neg hreg, hd, hc] at h
            obtain ⟨tail, hy, hf⟩ := map_ok_elim h
            subst hf
            intro c' hc'
            rcases List.mem_cons.mp hc' with h1 | h2
            · subst h1
              refine ⟨dstImg, ?_, (toDestinationImage_registry hb1 hb2 hd).1⟩
              exact valid_roundtrip (toDestinationImage_valid hd)
            · exact reconcileContainers_mirrored_out hb1 hb2 hy c' h2

theorem ReconcileDeployment_found_err {backup : Str} {f : Str → Str → Except Str Unit}
    {d : Deployment} {p : Except Str Unit} {e : Str}
    (h : (reconcilePodTemplate backup f d.template).2 = .error e) :
    ReconcileDeployment backup f (.found d) p =
      (⟨(reconcilePodTemplate backup f d.template).1,
        ["FailedCopyingImages".toList], none⟩, .error e) := by
  simp only [ReconcileDeployment, h]

theorem ReconcileDeployment_found_ok {backup : Str} {f : Str → Str → Except Str Unit}
    {d : Deployment} {p : Except Str Unit} {t2 : PodTemplateSpec}
    (h : (reconcilePodTemplate backup f d.template).2 = .ok t2) :
    ReconcileDeployment backup f (.found d) p =
      if { d with template := t2 } = d
      then (⟨(reconcilePodTemplate backup f d.template).1, [], none⟩, .ok ())
      else (⟨(reconcilePodTemplate backup f d.template).1, [],
        some { d with template := t2 }⟩, p) := by
  simp only [ReconcileDeployment, h]

theorem ReconcileDaemonSet_found_err {backup : Str} {f : Str → Str → Except Str Unit}
    {d : DaemonSet} {p : Except Str Unit} {e : Str}
    (h : (reconcilePodTemplate backup f d.template).2 = .error e) :
    ReconcileDaemonSet backup f (.found d) p =
      (⟨(reconcilePodTemplate backup f d.template).1,
        ["FailedCopyingImages".toList], none⟩, .error e) := by
  simp only [ReconcileDaemonSet, h]

theorem ReconcileDaemonSet_found_ok {backup : Str} {f : Str → Str → Except Str Unit}
    {d : DaemonSet} {p : Except Str Unit} {t2 : PodTemplateSpec}
    (h : (reconcilePodTemplate backup f d.template).2 = .ok t2) :
    ReconcileDaemonSet backup f (.found d) p =
      if { d with template := t2 } = d
      then (⟨(reconcilePodTemplate backup f d.template).1, [], none⟩, .ok ())
      else (⟨(reconcilePodTemplate backup f d.template).1, [],
        some { d with template := t2 }⟩, p) := by
  simp only [ReconcileDaemonSet, h]

/-- C4: for every string that parses, parse(serialize(parse s)) = parse s, and
for every valid reference x, parse(serialize(x)) = x. -/
theorem spec_C4 :
    (∀ (s : Str) (x : ImageReference), ParseReference s = .ok x →
        ParseReference x.name = .ok x) ∧
    (∀ x : ImageReference, x.valid = true → ParseReference x.name = .ok x) :=
  ⟨fun _ _ h => valid_roundtrip (ParseReference_ok_valid h),
   fun _ h => valid_roundtrip h⟩

theorem spec_C4_witness :
    ParseReference (ImageReference.name
        ⟨"ghcr.io".toList, "timebertt/speedtest-exporter".toList, .tag "v0.1.0".toList⟩)
      = .ok ⟨"ghcr.io".toList, "timebertt/speedtest-exporter".toList, .tag "v0.1.0".toList⟩ :=
  spec_C4.2 _ (by decide)

/-- C2: the destination reference is the backup registry, the sanitized source
registry prepended to the source repository, and the tag (digest sanitized);
in particular source nginx with backup 10.96.0.11:5001 yields exactly
10.96.0.11:5001/index_docker_io/library/nginx:latest. -/
theorem spec_C2 :
    (∀ (src : ImageReference) (backup : Str), src.valid = true →
        checkAuthority backup = true → distinguishable backup = true →
        toDestinationImage src backup =
          .ok ⟨backup, registryReplacer src.registry ++ '/' :: src.repository,
            .tag (destIdent src.identifier)⟩) ∧
    ((ParseReference "nginx".toList).bind
        (fun src => toDestinationImage src "10.96.0.11:5001".toList)).map
          ImageReference.name
      = .ok "10.96.0.11:5001/index_docker_io/library/nginx:latest".toList :=
  ⟨fun _ _ h1 h2 h3 => toDestinationImage_ok h1 h2 h3, by decide⟩

theorem spec_C2_witness :
    toDestinationImage ⟨DefaultRegistry, "library/nginx".toList, .tag "latest".toList⟩
        "10.96.0.11:5001".toList
      = .ok ⟨"10.96.0.11:5001".toList, "index_docker_io/library/nginx".toList,
          .tag "latest".toList⟩ := by
  rw [spec_C2.1 ⟨DefaultRegistry, "library/nginx".toList, .tag "latest".toList⟩
    "10.96.0.11:5001".toList (by decide) (by decide) (by decide)]
  decide

/-- C5: on valid inputs the destination function always returns a reference
(the error branch is unreachable), and it is a pure function of its two
inputs. -/
theorem spec_C5 (src : ImageReference) (backup : Str) (h1 : src.valid = true)
    (h2 : checkAuthority backup = true) (h3 : distinguishable backup = true) :
    (∃ dst : ImageReference, toDestinationImage src backup = .ok dst) ∧
    (∀ (src2 : ImageReference) (backup2 : Str), src2 = src → backup2 = backup →
        toDestinationImage src2 backup2 = toDestinationImage src backup) :=
  ⟨⟨_, toDestinationImage_ok h1 h2 h3⟩, fun _ _ ha hb => by rw [ha, hb]⟩

theorem spec_C5_witness :
    ∃ dst : ImageReference,
      toDestinationImage ⟨DefaultRegistry, "library/nginx".toList, .tag "latest".toList⟩
        "10.96.0.11:5001".toList = .ok dst :=
  (spec_C5 ⟨DefaultRegistry, "library/nginx".toList, .tag "latest".toList⟩
    "10.96.0.11:5001".toList (by decide) (by decide) (by decide)).1

/-- C6: a fetch that reports the workload as not found terminates the attempt
successfully with no transfer, no write and no notification, for both
workload kinds. -/
theorem spec_C6 (backup : Str) (f : Str → Str → Except Str Unit)
    (p : Except Str Unit) :
    ReconcileDeployment backup f .notFound p = (⟨[], [], none⟩, .ok ()) ∧
    ReconcileDaemonSet backup f .notFound p = (⟨[], [], none⟩, .ok ()) :=
  ⟨rfl, rfl⟩

/-- C9: a successful pod-template rewrite preserves the template's other
fields, the number and order of containers, and every container's name and
non-image fields. -/
theorem spec_C9 (backup : Str) (f : Str → Str → Except Str Unit)
    (t : PodTemplateSpec) (l : List (Str × Str)) (t2 : PodTemplateSpec)
    (h : reconcilePodTemplate backup f t = (l, .ok t2)) :
    t2.templateRest = t.templateRest ∧
    t2.containers.length = t.containers.length ∧
    List.Forall₂ (fun c c2 => c.name = c2.name ∧ c.containerRest = c2.containerRest)
      t.containers t2.containers := by
  have h2 : Except.map (fun cs => { t with containers := cs })
      (reconcileContainers backup f t.containers).2 = .ok t2 := congrArg Prod.snd h
  obtain ⟨cs2, hy, hf⟩ := map_ok_elim h2
  subst hf
  have hfor := reconcileContainers_frame hy
  exact ⟨rfl, (hfor.length_eq).symm ▸ rfl, hfor⟩

/-- C8: the namespace filter is a pure predicate accepting exactly the
namespaces outside the ignored set: kube-system, the registry namespace,
local-path-storage, and the configured own namespace when nonempty. -/
theorem spec_C8 (podNamespace objNamespace : Str) :
    namespacePredicate podNamespace objNamespace = true ↔
      (objNamespace ≠ "kube-system".toList ∧ objNamespace ≠ RegistryNamespace ∧
       objNamespace ≠ "local-path-storage".toList ∧
       (podNamespace ≠ [] → objNamespace ≠ podNamespace)) := by
  unfold namespacePredicate ignoredNamespaces
  by_cases hp : podNamespace.isEmpty
  · have : podNamespace = [] := by simpa using hp
    subst this
    simp [List.contains, List.elem_eq_mem]
  · have hne : podNamespace ≠ [] := by simpa using hp
    simp [hp, List.contains, List.elem_eq_mem, hne]

theorem spec_C9_witness :
    (⟨[⟨"app".toList, "10.96.0.11:5001/index_docker_io/library/nginx:latest".toList,
        ["resources".toList]⟩], ["volumes".toList]⟩ : PodTemplateSpec).templateRest =
      (⟨[⟨"app".toList, "nginx".toList, ["resources".toList]⟩],
        ["volumes".toList]⟩ : PodTemplateSpec).templateRest ∧
    (⟨[⟨"app".toList, "10.96.0.11:5001/index_docker_io/library/nginx:latest".toList,
        ["resources".toList]⟩], ["volumes".toList]⟩ : PodTemplateSpec).containers.length =
      (⟨[⟨"app".toList, "nginx".toList, ["resources".toList]⟩],
        ["volumes".toList]⟩ : PodTemplateSpec).containers.length ∧
    List.Forall₂ (fun c c2 => c.name = c2.name ∧ c.containerRest = c2.containerRest)
      (⟨[⟨"app".toList, "nginx".toList, ["resources".toList]⟩],
        ["volumes".toList]⟩ : PodTemplateSpec).containers
      (⟨[⟨"app".toList, "10.96.0.11:5001/index_docker_io/library/nginx:latest".toList,
        ["resources".toList]⟩], ["volumes".toList]⟩ : PodTemplateSpec).containers := by
  have h := spec_C9 "10.96.0.11:5001".toList (fun _ _ => .ok ())
    ⟨[⟨"app".toList, "nginx".toList, ["resources".toList]⟩], ["volumes".toList]⟩
    [("index.docker.io/library/nginx:latest".toList,
      "10.96.0.11:5001/index_docker_io/library/nginx:latest".toList)]
    ⟨[⟨"app".toList, "10.96.0.11:5001/index_docker_io/library/nginx:latest".toList,
      ["resources".toList]⟩], ["volumes".toList]⟩ (by decide)
  exact ⟨h.1.symm, h.2.1.symm, h.2.2⟩

/-- C3: a container whose image parses to the backup registry is skipped
entirely wherever it occurs — no transfer is invoked for it and its image is
unchanged in the rewritten list — and a workload all of whose containers are
already mirrored performs no transfer and no commit. -/
theorem spec_C3 (backup : Str) (f : Str → Str → Except Str Unit) (d : Deployment)
    (p : Except Str Unit) :
    (∀ (pre post : List Container) (c : Container) (cs : List Container)
        (r : ImageReference),
        ParseReference c.image = .ok r → r.registry = backup →
        (reconcileContainers backup f pre).2 = .ok cs →
        reconcileContainers backup f (pre ++ c :: post) =
          ((reconcileContainers backup f pre).1 ++ (reconcileContainers backup f post).1,
           (reconcileContainers backup f post).2.map (fun cs2 => cs ++ c :: cs2))) ∧
    ((∀ c ∈ d.template.containers,
        ∃ r, ParseReference c.image = .ok r ∧ r.registry = backup) →
      reconcilePodTemplate backup f d.template = ([], .ok d.template) ∧
      ReconcileDeployment backup f (.found d) p = (⟨[], [], none⟩, .ok ())) := by
  constructor
  · intro pre post c cs r hr hreg hpre
    rw [reconcileContainers_append_ok (c :: post) hpre]
    have hstep : reconcileContainers backup f (c :: post) =
        ((reconcileContainers backup f post).1,
         (reconcileContainers backup f post).2.map (c :: ·)) := by
      simp only [reconcileContainers, hr, if_pos hreg]
    rw [hstep]
    cases h3 : (reconcileContainers backup f post).2 <;> simp [h3, Except.map]
  · intro h
    have hrc := reconcileContainers_all_mirrored (f := f) h
    have hpt : reconcilePodTemplate backup f d.template = ([], .ok d.template) := by
      simp only [reconcilePodTemplate, hrc]
      rfl
    have h2 : (reconcilePodTemplate backup f d.template).2 = .ok d.template := by
      rw [hpt]
    refine ⟨hpt, ?_⟩
    rw [ReconcileDeployment_found_ok h2]
    rw [if_pos rfl, hpt]

theorem spec_C3_witness :
    reconcileContainers "10.96.0.11:5001".toList (fun _ _ => .ok ())
        (⟨"a".toList, "10.96.0.11:5001/index_docker_io/library/nginx:latest".toList,
            ([] : List Str)⟩ ::
          [⟨"b".toList, "busybox".toList, []⟩])
      = ([("index.docker.io/library/busybox:latest".toList,
           "10.96.0.11:5001/index_docker_io/library/busybox:latest".toList)],
         .ok [⟨"a".toList,
            "10.96.0.11:5001/index_docker_io/library/nginx:latest".toList, []⟩,
          ⟨"b".toList,
            "10.96.0.11:5001/index_docker_io/library/busybox:latest".toList, []⟩]) :=
  ((spec_C3 "10.96.0.11:5001".toList (fun _ _ => .ok ())
      ⟨"default".toList, "web".toList, ⟨[], []⟩, []⟩ (.ok ())).1
    [] [⟨"b".toList, "busybox".toList, []⟩]
    ⟨"a".toList, "10.96.0.11:5001/index_docker_io/library/nginx:latest".toList, []⟩
    []
    ⟨"10.96.0.11:5001".toList, "index_docker_io/library/nginx".toList,
      .tag "latest".toList⟩
    (by decide) (by decide) (by decide)).trans (by decide)

/-- C7: for both workload kinds, a warning event is recorded exactly once per
attempt precisely when the pod-template rewrite fails; none is recorded on
not-found, read error, no-op, successful commit, or patch (conflict)
failure. -/
theorem spec_C7 (backup : Str) (f : Str → Str → Except Str Unit)
    (getD : GetOutcome Deployment) (getS : GetOutcome DaemonSet)
    (p p2 : Except Str Unit) :
    ((ReconcileDeployment backup f getD p).1.events =
      (match getD with
       | .found d => if exceptOk (reconcilePodTemplate backup f d.template).2 = true
                     then [] else ["FailedCopyingImages".toList]
       | _ => ([] : List Str))) ∧
    ((ReconcileDaemonSet backup f getS p2).1.events =
      (match getS with
       | .found d => if exceptOk (reconcilePodTemplate backup f d.template).2 = true
                     then [] else ["FailedCopyingImages".toList]
       | _ => ([] : List Str))) := by
  constructor
  · cases getD with
    | notFound => rfl
    | getError e => rfl
    | found d =>
      cases hpr : (reconcilePodTemplate backup f d.template).2 with
      | error e =>
        rw [ReconcileDeployment_found_err hpr]
        simp [exceptOk, hpr]
      | ok t2 =>
        rw [ReconcileDeployment_found_ok hpr]
        by_cases heq : { d with template := t2 } = d
        · simp [heq, exceptOk, hpr]
        · simp [heq, exceptOk, hpr]
  · cases getS with
    | notFound => rfl
    | getError e => rfl
    | found d =>
      cases hpr : (reconcilePodTemplate backup f d.template).2 with
      | error e =>
        rw [ReconcileDaemonSet_found_err hpr]
        simp [exceptOk, hpr]
      | ok t2 =>
        rw [ReconcileDaemonSet_found_ok hpr]
        by_cases heq : { d with template := t2 } = d
        · simp [heq, exceptOk, hpr]
        · simp [heq, exceptOk, hpr]

/-- C10: every successful destination reference is tag-addressed with the
backup registry as its authority, and a second reconciliation of the output
of a successful rewrite is a no-op. -/
theorem spec_C10 (backup : Str) (hb1 : checkAuthority backup = true)
    (hb2 : distinguishable backup = true) :
    (∀ src dst : ImageReference, toDestinationImage src backup = .ok dst →
        (∃ t, dst.identifier = .tag t) ∧ dst.registry = backup) ∧
    (∀ (f : Str → Str → Except Str Unit) (t t2 : PodTemplateSpec)
        (l : List (Str × Str)),
        reconcilePodTemplate backup f t = (l, .ok t2) →
        reconcilePodTemplate backup f t2 = ([], .ok t2)) := by
  constructor
  · intro src dst h
    obtain ⟨h1, h2⟩ := toDestinationImage_registry hb1 hb2 h
    exact ⟨h2, h1⟩
  · intro f t t2 l h
    have h2 : Except.map (fun cs => { t with containers := cs })
        (reconcileContainers backup f t.containers).2 = .ok t2 := congrArg Prod.snd h
    obtain ⟨cs2, hy, hf⟩ := map_ok_elim h2
    subst hf
    have hall := reconcileContainers_mirrored_out hb1 hb2 hy
    have hrc := reconcileContainers_all_mirrored (f := f) hall
    simp only [reconcilePodTemplate, hrc]
    rfl

theorem spec_C10_witness :
    reconcilePodTemplate "10.96.0.11:5001".toList (fun _ _ => .ok ())
      ⟨[⟨"app".toList,
        "10.96.0.11:5001/index_docker_io/library/nginx:latest".toList, []⟩], []⟩
      = ([], .ok ⟨[⟨"app".toList,
        "10.96.0.11:5001/index_docker_io/library/nginx:latest".toList, []⟩], []⟩) :=
  (spec_C10 "10.96.0.11:5001".toList (by decide) (by decide)).2 (fun _ _ => .ok ())
    ⟨[⟨"app".toList, "nginx".toList, []⟩], []⟩
    ⟨[⟨"app".toList,
      "10.96.0.11:5001/index_docker_io/library/nginx:latest".toList, []⟩], []⟩
    [("index.docker.io/library/nginx:latest".toList,
      "10.96.0.11:5001/index_docker_io/library/nginx:latest".toList)]
    (by decide)

/-- C1: if processing any container fails (parse, rewrite or transfer), the
attempt aborts: no patch is issued, the attempt returns an error, the stored
workload is unchanged, and the whole outcome is independent of the containers
after the failing one. -/
theorem spec_C1 (backup : Str) (f : Str → Str → Except Str Unit)
    (pre post post2 : List Container) (ck : Container) (d : Deployment)
    (p p2 : Except Str Unit) (b : Bool) (e : Str)
    (hk : (reconcileContainers backup f [ck]).2 = .error e) :
    (ReconcileDeployment backup f
        (.found (withContainers d (pre ++ ck :: post))) p).1.patch = none ∧
    exceptOk (ReconcileDeployment backup f
        (.found (withContainers d (pre ++ ck :: post))) p).2 = false ∧
    storedAfter (withContainers d (pre ++ ck :: post))
        (ReconcileDeployment backup f
          (.found (withContainers d (pre ++ ck :: post))) p).1 b
      = withContainers d (pre ++ ck :: post) ∧
    ReconcileDeployment backup f (.found (withContainers d (pre ++ ck :: post))) p
      = ReconcileDeployment backup f
          (.found (withContainers d (pre ++ ck :: post2))) p2 := by
  have key : ∀ post0 : List Container,
      reconcileContainers backup f (pre ++ ck :: post0)
        = reconcileContainers backup f (pre ++ [ck]) := by
    intro post0
    cases h2 : (reconcileContainers backup f pre).2 with
    | error ep =>
      rw [reconcileContainers_append_err (ck :: post0) h2,
          reconcileContainers_append_err [ck] h2]
    | ok cs =>
      rw [reconcileContainers_append_ok (ck :: post0) h2,
          reconcileContainers_append_ok [ck] h2,
          reconcileContainers_cons_err hk post0]
      simp [hk, Except.map]
  obtain ⟨e2, he2⟩ : ∃ e2,
      (reconcileContainers backup f (pre ++ [ck])).2 = .error e2 := by
    cases h2 : (reconcileContainers backup f pre).2 with
    | error ep =>
      rw [reconcileContainers_append_err [ck] h2]
      exact ⟨ep, rfl⟩
    | ok cs =>
      rw [reconcileContainers_append_ok [ck] h2]
      refine ⟨e, ?_⟩
      simp [hk, Except.map]
  have hpt : ∀ post0 : List Container,
      (reconcilePodTemplate backup f
        (withContainers d (pre ++ ck :: post0)).template).2 = .error e2 := by
    intro post0
    have hx : (reconcileContainers backup f (pre ++ ck :: post0)).2 = .error e2 := by
      rw [key post0]
      exact he2
    show Except.map _ (reconcileContainers backup f (pre ++ ck :: post0)).2 = .error e2
    rw [hx]
    rfl
  have hrun : ∀ (post0 : List Container) (p0 : Except Str Unit),
      ReconcileDeployment backup f
          (.found (withContainers d (pre ++ ck :: post0))) p0
        = (⟨(reconcileContainers backup f (pre ++ [ck])).1,
            ["FailedCopyingImages".toList], none⟩, .error e2) := by
    intro post0 p0
    rw [ReconcileDeployment_found_err (hpt post0)]
    have hc1 : (reconcilePodTemplate backup f
        (withContainers d (pre ++ ck :: post0)).template).1
        = (reconcileContainers backup f (pre ++ [ck])).1 := by
      show (reconcileContainers backup f (pre ++ ck :: post0)).1 = _
      rw [key post0]
    rw [hc1]
  refine ⟨?_, ?_, ?_, ?_⟩
  · rw [hrun post p]
  · rw [hrun post p]
    rfl
  · rw [hrun post p]
    rfl
  · rw [hrun post p, hrun post2 p2]

theorem spec_C1_witness :
    (reconcileContainers "10.96.0.11:5001".toList copyW
        [⟨"b".toList, "busybox".toList, []⟩]).2
      = .error "error copying image".toList ∧
    (ReconcileDeployment "10.96.0.11:5001".toList copyW
        (.found (withContainers ⟨"default".toList, "web".toList, ⟨[], []⟩, []⟩
          ([⟨"a".toList, "nginx".toList, []⟩] ++
            ⟨"b".toList, "busybox".toList, []⟩ :: []))) (.ok ())).1.patch = none :=
  ⟨by decide,
   (spec_C1 "10.96.0.11:5001".toList copyW [⟨"a".toList, "nginx".toList, []⟩] [] []
      ⟨"b".toList, "busybox".toList, []⟩ ⟨"default".toList, "web".toList, ⟨[], []⟩, []⟩
      (.ok ()) (.ok ()) true "error copying image".toList (by decide)).1⟩

end ICC
